import Mathlib

/-!
Verification of the Portilla-Simoncelli texture-statistics encoder and the
pooling-window operators of the plenoptic repository, against their
natural-language specification.

The development shallowly embeds the relevant code paths of
`plenoptic/simulate/models/portilla_simoncelli.py` and
`plenoptic/simulate/canonical_computations/pooling.py`.  Tensors are embedded
one (batch, channel) slice at a time: the statistics are computed
independently for every such slice, so each embedded function works on the
flattened trailing dimensions of one slice.  Machine floats are embedded as
exact rationals; values produced through square roots (standard deviations,
skewness) live in `ℝ`.

A few helpers called by the embedded code (`plenoptic.tools.stats.skew`,
`plenoptic.tools.stats.kurtosis`, `plenoptic.tools.signal.autocorrelation`,
`plenoptic.tools.signal.shrink`, `plenoptic.tools.signal.modulate_phase`) are
not part of the sources; their definitions below are modelled from the
specification text and are marked as such in their doc comments.
-/

namespace Plenoptic

/-- The scale label attached to every entry of the representation vector
(`SCALES_TYPE` in `portilla_simoncelli.py`): one of the three string labels or
an integer scale index. -/
inductive ScaleLabel where
  | pixelStatistics
  | residualLowpass
  | residualHighpass
  | scaleIx (k : ℕ)
deriving DecidableEq, Repr

/-- The constructor parameters of `PortillaSimoncelli` that determine the
layout of the representation vector. -/
structure PSParams where
  nScales : ℕ
  nOrientations : ℕ
  spatialCorrWidth : ℕ
  useTrueCorrelations : Bool
deriving DecidableEq, Repr

/-- Python's `n * list` repetition (used as `self.spatial_corr_width**2 *
scales_with_lowpass` and similar in `_get_representation_scales`). -/
def listRepeat (n : ℕ) (l : List α) : List α :=
  (List.replicate n l).join

/-- `max(2 * self.n_orientations, 5)`, written `ori_crossed` in
`_get_representation_scales` and `dim` in the lowpass-concatenation
helpers. -/
def oriCrossed (p : PSParams) : ℕ :=
  max (2 * p.nOrientations) 5

/-- `PortillaSimoncelli._get_representation_scales`: the scale label of every
entry of the representation vector, in vector order. -/
def representation_scales (p : PSParams) : List ScaleLabel :=
  let pixel_statistics := List.replicate 6 ScaleLabel.pixelStatistics
  let scales := (List.range p.nScales).map ScaleLabel.scaleIx
  let scales_with_lowpass := scales ++ [ScaleLabel.residualLowpass]
  let scales_by_ori := (scales.map (List.replicate p.nOrientations)).join
  let magnitude_means :=
    [ScaleLabel.residualHighpass] ++ scales_by_ori ++ [ScaleLabel.residualLowpass]
  let skew_reconstructed := scales_with_lowpass
  let kurtosis_reconstructed := scales_with_lowpass
  let std_reconstructed := scales_with_lowpass
  let auto_corr := listRepeat (p.spatialCorrWidth ^ 2) scales_with_lowpass
  let auto_corr_mag := listRepeat (p.spatialCorrWidth ^ 2) scales_by_ori
  let cross_orientation_corr_mag := listRepeat (p.nOrientations ^ 2) scales_with_lowpass
  let cross_orientation_corr_real := listRepeat (oriCrossed p ^ 2) scales_with_lowpass
  let cross_scale_corr_mag := listRepeat (p.nOrientations ^ 2) scales
  let cross_scale_corr_real := listRepeat (2 * p.nOrientations * oriCrossed p) scales
  let var_highpass_residual := [ScaleLabel.residualHighpass]
  if p.useTrueCorrelations then
    pixel_statistics ++ magnitude_means ++ auto_corr_mag ++ skew_reconstructed ++
      kurtosis_reconstructed ++ auto_corr ++ std_reconstructed ++
      cross_orientation_corr_mag ++ cross_scale_corr_mag ++
      cross_orientation_corr_real ++ cross_scale_corr_real ++ var_highpass_residual
  else
    pixel_statistics ++ magnitude_means ++ auto_corr_mag ++ skew_reconstructed ++
      kurtosis_reconstructed ++ auto_corr ++
      cross_orientation_corr_mag ++ cross_scale_corr_mag ++
      cross_orientation_corr_real ++ cross_scale_corr_real ++ var_highpass_residual

/-! Per-block lengths of the representation vector, i.e. the flattened sizes
of the statistic tensors packed by `forward` and sliced back out by
`convert_to_dict`. -/

/-- Flattened length of the `magnitude_means` block. -/
def magMeansLen (p : PSParams) : ℕ := p.nScales * p.nOrientations + 2

/-- Flattened length of the `auto_correlation_magnitude` block. -/
def autoCorrMagLen (p : PSParams) : ℕ :=
  p.spatialCorrWidth ^ 2 * (p.nScales * p.nOrientations)

/-- Flattened length of the `skew_reconstructed` block (also of
`kurtosis_reconstructed` and `std_reconstructed`). -/
def skewLen (p : PSParams) : ℕ := p.nScales + 1

/-- Flattened length of the `auto_correlation_reconstructed` block. -/
def autoCorrReconLen (p : PSParams) : ℕ :=
  p.spatialCorrWidth ^ 2 * (p.nScales + 1)

/-- Flattened length of the `cross_orientation_correlation_magnitude` block. -/
def crossOriMagLen (p : PSParams) : ℕ :=
  p.nOrientations ^ 2 * (p.nScales + 1)

/-- Flattened length of the `cross_scale_correlation_magnitude` block. -/
def crossScaleMagLen (p : PSParams) : ℕ :=
  p.nOrientations ^ 2 * p.nScales

/-- Flattened length of the `cross_orientation_correlation_real` block. -/
def crossOriRealLen (p : PSParams) : ℕ :=
  oriCrossed p ^ 2 * (p.nScales + 1)

/-- Flattened length of the `cross_scale_correlation_real` block. -/
def crossScaleRealLen (p : PSParams) : ℕ :=
  2 * p.nOrientations * oriCrossed p * p.nScales

theorem listRepeat_length (n : ℕ) (l : List α) :
    (listRepeat n l).length = n * l.length := by
  induction n with
  | zero => simp [listRepeat]
  | succ k ih =>
    simp only [listRepeat, List.replicate_succ, List.join_cons, List.length_append]
    simpa [listRepeat, Nat.succ_mul, Nat.add_comm] using congrArg (l.length + ·) ih

theorem sum_map_length_replicate (n : ℕ) (l : List β) (f : β → α) :
    (l.map (List.length ∘ List.replicate n ∘ f)).sum = l.length * n := by
  induction l with
  | nil => simp
  | cons a t ih => simp [ih, Nat.succ_mul, Nat.add_comm]

/-- The length of the label list, block by block. -/
theorem representation_scales_length (p : PSParams) :
    (representation_scales p).length =
      6 + magMeansLen p + autoCorrMagLen p + skewLen p + skewLen p +
        autoCorrReconLen p + (if p.useTrueCorrelations then skewLen p else 0) +
        crossOriMagLen p + crossScaleMagLen p + crossOriRealLen p +
        crossScaleRealLen p + 1 := by
  cases hcorr : p.useTrueCorrelations <;>
    simp [representation_scales, hcorr, listRepeat_length, sum_map_length_replicate,
      magMeansLen, autoCorrMagLen, skewLen, autoCorrReconLen, crossOriMagLen,
      crossScaleMagLen, crossOriRealLen, crossScaleRealLen] <;>
    ring

/-! ## The vector/dictionary codec (`convert_to_dict` / `convert_to_vector`) -/

/-- The structured dictionary produced by `PortillaSimoncelli.convert_to_dict`,
with each statistic block kept in its flattened (final-dimension) form for one
(batch, channel) slice.  `pixel_statistics` and `magnitude_means` are
`OrderedDict`s of scalars in the code; flattened they are lists in insertion
order.  `std_reconstructed` is present exactly when `use_true_correlations`. -/
structure PSDict (α : Type*) where
  pixel_statistics : List α
  magnitude_means : List α
  auto_correlation_magnitude : List α
  skew_reconstructed : List α
  kurtosis_reconstructed : List α
  auto_correlation_reconstructed : List α
  std_reconstructed : Option (List α)
  cross_orientation_correlation_magnitude : List α
  cross_scale_correlation_magnitude : List α
  cross_orientation_correlation_real : List α
  cross_scale_correlation_real : List α
  var_highpass_residual : List α

/-- `PortillaSimoncelli.convert_to_dict`: raises a `ValueError` naming the
expected and the actual length when the final dimension of the input does not
match `len(self.representation_scales)`, and otherwise slices the vector into
the statistic blocks, consuming it left to right (the running `n_filled`
offset of the code is the chain of `drop`s here). -/
def convert_to_dict (p : PSParams) (vec : List α) :
    Except (ℕ × ℕ) (PSDict α) :=
  if vec.length ≠ (representation_scales p).length then
    Except.error ((representation_scales p).length, vec.length)
  else
    let r1 := vec.drop 6
    let r2 := r1.drop (magMeansLen p)
    let r3 := r2.drop (autoCorrMagLen p)
    let r4 := r3.drop (skewLen p)
    let r5 := r4.drop (skewLen p)
    let r6 := r5.drop (autoCorrReconLen p)
    let r7 := if p.useTrueCorrelations then r6.drop (skewLen p) else r6
    let r8 := r7.drop (crossOriMagLen p)
    let r9 := r8.drop (crossScaleMagLen p)
    let r10 := r9.drop (crossOriRealLen p)
    let r11 := r10.drop (crossScaleRealLen p)
    Except.ok
      { pixel_statistics := vec.take 6
        magnitude_means := r1.take (magMeansLen p)
        auto_correlation_magnitude := r2.take (autoCorrMagLen p)
        skew_reconstructed := r3.take (skewLen p)
        kurtosis_reconstructed := r4.take (skewLen p)
        auto_correlation_reconstructed := r5.take (autoCorrReconLen p)
        std_reconstructed :=
          if p.useTrueCorrelations then some (r6.take (skewLen p)) else none
        cross_orientation_correlation_magnitude := r7.take (crossOriMagLen p)
        cross_scale_correlation_magnitude := r8.take (crossScaleMagLen p)
        cross_orientation_correlation_real := r9.take (crossOriRealLen p)
        cross_scale_correlation_real := r10.take (crossScaleRealLen p)
        var_highpass_residual := r11.take 1 }

/-- `PortillaSimoncelli.convert_to_vector`: concatenates the flattened blocks
back in dictionary-insertion order (stacked scalars for the `OrderedDict`
blocks, `flatten` for the tensors, `unsqueeze` for the final scalar). -/
def convert_to_vector (d : PSDict α) : List α :=
  d.pixel_statistics ++ d.magnitude_means ++ d.auto_correlation_magnitude ++
    d.skew_reconstructed ++ d.kurtosis_reconstructed ++
    d.auto_correlation_reconstructed ++
    (match d.std_reconstructed with | some l => l | none => []) ++
    d.cross_orientation_correlation_magnitude ++
    d.cross_scale_correlation_magnitude ++
    d.cross_orientation_correlation_real ++
    d.cross_scale_correlation_real ++ d.var_highpass_residual

/-- Shared helper: the codec round-trips on every vector of full length. -/
theorem convert_roundtrip_full (p : PSParams) (v : List α)
    (hv : v.length = (representation_scales p).length) :
    (convert_to_dict p v).map convert_to_vector = Except.ok v := by
  have hlen := representation_scales_length p
  cases hcorr : p.useTrueCorrelations with
  | true =>
    have hv' : v.length =
        6 + magMeansLen p + autoCorrMagLen p + skewLen p + skewLen p +
          autoCorrReconLen p + skewLen p + crossOriMagLen p + crossScaleMagLen p +
          crossOriRealLen p + crossScaleRealLen p + 1 := by
      rw [hv, hlen, hcorr]; simp
    have htail :
        (((((((((((v.drop 6).drop (magMeansLen p)).drop (autoCorrMagLen p)).drop
          (skewLen p)).drop (skewLen p)).drop (autoCorrReconLen p)).drop
          (skewLen p)).drop (crossOriMagLen p)).drop (crossScaleMagLen p)).drop
          (crossOriRealLen p)).drop (crossScaleRealLen p)).take 1 =
        ((((((((((v.drop 6).drop (magMeansLen p)).drop (autoCorrMagLen p)).drop
          (skewLen p)).drop (skewLen p)).drop (autoCorrReconLen p)).drop
          (skewLen p)).drop (crossOriMagLen p)).drop (crossScaleMagLen p)).drop
          (crossOriRealLen p)).drop (crossScaleRealLen p) := by
      apply List.take_of_length_le
      simp only [List.length_drop]
      omega
    simp only [convert_to_dict, hv, hcorr, ne_eq, not_true_eq_false, if_false,
      if_true, ite_true, Except.map, convert_to_vector]
    rw [htail]
    simp only [List.append_assoc, List.nil_append]
    simp only [List.take_append_drop]
  | false =>
    have hv' : v.length =
        6 + magMeansLen p + autoCorrMagLen p + skewLen p + skewLen p +
          autoCorrReconLen p + crossOriMagLen p + crossScaleMagLen p +
          crossOriRealLen p + crossScaleRealLen p + 1 := by
      rw [hv, hlen, hcorr]; simp
    have htail :
        ((((((((((v.drop 6).drop (magMeansLen p)).drop (autoCorrMagLen p)).drop
          (skewLen p)).drop (skewLen p)).drop (autoCorrReconLen p)).drop
          (crossOriMagLen p)).drop (crossScaleMagLen p)).drop
          (crossOriRealLen p)).drop (crossScaleRealLen p)).take 1 =
        (((((((((v.drop 6).drop (magMeansLen p)).drop (autoCorrMagLen p)).drop
          (skewLen p)).drop (skewLen p)).drop (autoCorrReconLen p)).drop
          (crossOriMagLen p)).drop (crossScaleMagLen p)).drop
          (crossOriRealLen p)).drop (crossScaleRealLen p) := by
      apply List.take_of_length_le
      simp only [List.length_drop]
      omega
    simp only [convert_to_dict, hv, hcorr, ne_eq, not_true_eq_false, if_false,
      if_true, ite_true, ite_false, Bool.false_eq_true, Except.map,
      convert_to_vector]
    rw [htail]
    simp only [List.append_assoc, List.nil_append]
    simp only [List.take_append_drop]

/-! ## The packed `forward` output -/

/-- `einops.pack(all_stats, 'b c *')` at the end of
`PortillaSimoncelli.forward`: the statistic blocks — each already flattened
over its trailing dimensions for one (batch, channel) slice — concatenated in
the fixed order, with `std_reconstructed` included exactly when
`use_true_correlations`.  The blocks themselves come from the pyramid
decomposition (an external collaborator), so they enter here as data; their
flattened lengths are recorded as hypotheses in the theorems below, following
the shape bookkeeping of `forward` (both branches of the `n_scales == 1`
special case produce the same flattened lengths). -/
def forward_vector (p : PSParams)
    (pixel_stats mag_means autocorr_mags skew_recon kurtosis_recon
      autocorr_recon std_recon cross_ori_corr_mags cross_scale_corr_mags
      cross_ori_corr_real cross_scale_corr_real var_highpass : List ℚ) :
    List ℚ :=
  pixel_stats ++ mag_means ++ autocorr_mags ++ skew_recon ++ kurtosis_recon ++
    autocorr_recon ++ (if p.useTrueCorrelations then std_recon else []) ++
    cross_ori_corr_mags ++ cross_scale_corr_mags ++ cross_ori_corr_real ++
    cross_scale_corr_real ++ var_highpass

/-- Shared helper: the packed forward output always has the full
representation length. -/
theorem forward_vector_length (p : PSParams)
    (b1 b2 b3 b4 b5 b6 b7 b8 b9 b10 b11 b12 : List ℚ)
    (h1 : b1.length = 6) (h2 : b2.length = magMeansLen p)
    (h3 : b3.length = autoCorrMagLen p) (h4 : b4.length = skewLen p)
    (h5 : b5.length = skewLen p) (h6 : b6.length = autoCorrReconLen p)
    (h7 : b7.length = skewLen p) (h8 : b8.length = crossOriMagLen p)
    (h9 : b9.length = crossScaleMagLen p) (h10 : b10.length = crossOriRealLen p)
    (h11 : b11.length = crossScaleRealLen p) (h12 : b12.length = 1) :
    (forward_vector p b1 b2 b3 b4 b5 b6 b7 b8 b9 b10 b11 b12).length =
      (representation_scales p).length := by
  rw [representation_scales_length]
  cases hcorr : p.useTrueCorrelations <;>
    simp [forward_vector, hcorr, h1, h2, h3, h4, h5, h6, h7, h8, h9, h10, h11,
      h12] <;>
    omega

/-- C1: for any constructor parameters and any image, converting the full
(non-subsetted) vector packed by `forward` to a dictionary with
`convert_to_dict` and flattening it back with `convert_to_vector` returns the
original vector exactly; the two converters are exact inverses over the full
representation vector. -/
theorem convert_to_dict_vector_inverse (p : PSParams)
    (b1 b2 b3 b4 b5 b6 b7 b8 b9 b10 b11 b12 : List ℚ)
    (h1 : b1.length = 6) (h2 : b2.length = magMeansLen p)
    (h3 : b3.length = autoCorrMagLen p) (h4 : b4.length = skewLen p)
    (h5 : b5.length = skewLen p) (h6 : b6.length = autoCorrReconLen p)
    (h7 : b7.length = skewLen p) (h8 : b8.length = crossOriMagLen p)
    (h9 : b9.length = crossScaleMagLen p) (h10 : b10.length = crossOriRealLen p)
    (h11 : b11.length = crossScaleRealLen p) (h12 : b12.length = 1) :
    (convert_to_dict p
        (forward_vector p b1 b2 b3 b4 b5 b6 b7 b8 b9 b10 b11 b12)).map
      convert_to_vector =
      Except.ok (forward_vector p b1 b2 b3 b4 b5 b6 b7 b8 b9 b10 b11 b12) :=
  convert_roundtrip_full p _
    (forward_vector_length p b1 b2 b3 b4 b5 b6 b7 b8 b9 b10 b11 b12 h1 h2 h3
      h4 h5 h6 h7 h8 h9 h10 h11 h12)

/-- Witness for C1 at `n_scales = 1`, `n_orientations = 1`,
`spatial_corr_width = 3`, `use_true_correlations = false`, on a concrete
all-zero statistic vector of full length 104. -/
theorem convert_to_dict_vector_inverse_witness :
    (convert_to_dict ⟨1, 1, 3, false⟩
        (forward_vector ⟨1, 1, 3, false⟩ (List.replicate 6 (0 : ℚ))
          (List.replicate 3 0) (List.replicate 9 0) (List.replicate 2 0)
          (List.replicate 2 0) (List.replicate 18 0) (List.replicate 2 0)
          (List.replicate 2 0) (List.replicate 1 0) (List.replicate 50 0)
          (List.replicate 10 0) (List.replicate 1 0))).map convert_to_vector =
      Except.ok
        (forward_vector ⟨1, 1, 3, false⟩ (List.replicate 6 (0 : ℚ))
          (List.replicate 3 0) (List.replicate 9 0) (List.replicate 2 0)
          (List.replicate 2 0) (List.replicate 18 0) (List.replicate 2 0)
          (List.replicate 2 0) (List.replicate 1 0) (List.replicate 50 0)
          (List.replicate 10 0) (List.replicate 1 0)) :=
  convert_to_dict_vector_inverse ⟨1, 1, 3, false⟩ _ _ _ _ _ _ _ _ _ _ _ _
    (by decide) (by decide) (by decide) (by decide) (by decide) (by decide)
    (by decide) (by decide) (by decide) (by decide) (by decide) (by decide)

/-- Shared helper: every label in `representation_scales` is one of the three
string labels or an integer scale below `n_scales`. -/
theorem mem_representation_scales_valid (p : PSParams) (l : ScaleLabel)
    (hl : l ∈ representation_scales p) :
    l = ScaleLabel.pixelStatistics ∨ l = ScaleLabel.residualLowpass ∨
      l = ScaleLabel.residualHighpass ∨
      ∃ k, k < p.nScales ∧ l = ScaleLabel.scaleIx k := by
  cases hcorr : p.useTrueCorrelations <;>
  · rw [representation_scales] at hl
    simp only [hcorr, Bool.false_eq_true, if_false, if_true, ite_true,
      ite_false, listRepeat, List.mem_append, List.mem_join, List.mem_map,
      List.mem_replicate, List.mem_singleton, List.mem_range] at hl
    aesop

/-- C2: for every parameter choice, `representation_scales` has exactly the
length of the vector packed by `forward` (with `scales = None`), and each of
its entries is `pixel_statistics`, `residual_lowpass`, `residual_highpass`, or
an integer scale in `0 .. n_scales - 1`. -/
theorem representation_scales_invariant (p : PSParams)
    (b1 b2 b3 b4 b5 b6 b7 b8 b9 b10 b11 b12 : List ℚ)
    (h1 : b1.length = 6) (h2 : b2.length = magMeansLen p)
    (h3 : b3.length = autoCorrMagLen p) (h4 : b4.length = skewLen p)
    (h5 : b5.length = skewLen p) (h6 : b6.length = autoCorrReconLen p)
    (h7 : b7.length = skewLen p) (h8 : b8.length = crossOriMagLen p)
    (h9 : b9.length = crossScaleMagLen p) (h10 : b10.length = crossOriRealLen p)
    (h11 : b11.length = crossScaleRealLen p) (h12 : b12.length = 1) :
    (representation_scales p).length =
        (forward_vector p b1 b2 b3 b4 b5 b6 b7 b8 b9 b10 b11 b12).length ∧
      ∀ l ∈ representation_scales p,
        l = ScaleLabel.pixelStatistics ∨ l = ScaleLabel.residualLowpass ∨
          l = ScaleLabel.residualHighpass ∨
          ∃ k, k < p.nScales ∧ l = ScaleLabel.scaleIx k :=
  ⟨(forward_vector_length p b1 b2 b3 b4 b5 b6 b7 b8 b9 b10 b11 b12 h1 h2 h3
      h4 h5 h6 h7 h8 h9 h10 h11 h12).symm,
    mem_representation_scales_valid p⟩

/-- Witness for C2 at `n_scales = 1`, `n_orientations = 1`,
`spatial_corr_width = 3`, `use_true_correlations = false`. -/
theorem representation_scales_invariant_witness :
    (representation_scales ⟨1, 1, 3, false⟩).length =
        (forward_vector ⟨1, 1, 3, false⟩ (List.replicate 6 (0 : ℚ))
          (List.replicate 3 0) (List.replicate 9 0) (List.replicate 2 0)
          (List.replicate 2 0) (List.replicate 18 0) (List.replicate 2 0)
          (List.replicate 2 0) (List.replicate 1 0) (List.replicate 50 0)
          (List.replicate 10 0) (List.replicate 1 0)).length ∧
      ∀ l ∈ representation_scales ⟨1, 1, 3, false⟩,
        l = ScaleLabel.pixelStatistics ∨ l = ScaleLabel.residualLowpass ∨
          l = ScaleLabel.residualHighpass ∨
          ∃ k, k < (1 : ℕ) ∧ l = ScaleLabel.scaleIx k :=
  representation_scales_invariant ⟨1, 1, 3, false⟩ _ _ _ _ _ _ _ _ _ _ _ _
    (by decide) (by decide) (by decide) (by decide) (by decide) (by decide)
    (by decide) (by decide) (by decide) (by decide) (by decide) (by decide)

/-! ## Scale-based sub-selection (`remove_scales`) -/

/-- `PortillaSimoncelli.remove_scales`: collect the indices whose label is in
`scales_to_keep` (Python's `enumerate` + membership filter) and
`index_select` the vector at those indices. -/
def remove_scales (p : PSParams) (representation_vector : List ℚ)
    (scales_to_keep : List ScaleLabel) : List ℚ :=
  let ind := ((representation_scales p).enum.filter
      (fun is => decide (is.2 ∈ scales_to_keep))).map Prod.fst
  ind.map (fun i => representation_vector.getD i 0)

theorem enumFrom_filter_getD (S : List ScaleLabel) :
    ∀ (L : List ScaleLabel) (v w : List ℚ), v.length = L.length →
      (((L.enumFrom w.length).filter (fun is => decide (is.2 ∈ S))).map
          Prod.fst).map (fun i => (w ++ v).getD i 0) =
        ((L.zip v).filter (fun x => decide (x.1 ∈ S))).map Prod.snd := by
  intro L
  induction L with
  | nil => intro v w _; simp
  | cons a L ih =>
    intro v w hv
    cases v with
    | nil => simp at hv
    | cons b v' =>
      have hlen : v'.length = L.length := by simpa using hv
      have hb : (w ++ b :: v').getD w.length 0 = b := by
        rw [List.getD_append_right _ _ _ _ (le_refl _)]
        simp
      have htail := ih v' (w ++ [b]) hlen
      have hw1 : (w ++ [b]).length = w.length + 1 := by simp
      rw [hw1, List.append_assoc] at htail
      simp only [List.singleton_append] at htail
      by_cases hmem : a ∈ S
      · have hpa : decide (a ∈ S) = true := by simpa using hmem
        simp only [List.enumFrom_cons, List.zip_cons_cons, List.filter_cons,
          hpa, if_true, List.map_cons]
        rw [hb, htail]
      · have hpa : decide (a ∈ S) = false := by simpa using hmem
        simp only [List.enumFrom_cons, List.zip_cons_cons, List.filter_cons,
          hpa, if_false]
        exact htail

theorem enumFrom_filter_length (S : List ScaleLabel) :
    ∀ (L : List ScaleLabel) (n : ℕ),
      ((L.enumFrom n).filter (fun is => decide (is.2 ∈ S))).length =
        (L.filter (fun l => decide (l ∈ S))).length := by
  intro L
  induction L with
  | nil => intro n; simp
  | cons a L ih =>
    intro n
    by_cases h : a ∈ S <;>
      simp [List.enumFrom_cons, List.filter_cons, h, ih]

/-- Shared helper: the subsetted vector is exactly as long as the list of
kept labels (independently of the input vector). -/
theorem remove_scales_length (p : PSParams) (v : List ℚ)
    (S : List ScaleLabel) :
    (remove_scales p v S).length =
      ((representation_scales p).filter (fun l => decide (l ∈ S))).length := by
  simp only [remove_scales, List.length_map]
  exact enumFrom_filter_length S (representation_scales p) 0

/-- C8: `remove_scales` is a pure mask: it returns exactly the entries of the
full vector at the positions whose label is in `scales_to_keep`, in their
original order; its length is the number of such positions; and a label
outside the valid label set matches no position and has no effect. -/
theorem remove_scales_pure_mask (p : PSParams) (v : List ℚ)
    (S : List ScaleLabel) (hv : v.length = (representation_scales p).length) :
    remove_scales p v S =
        (((representation_scales p).zip v).filter
          (fun x => decide (x.1 ∈ S))).map Prod.snd ∧
      (remove_scales p v S).length =
        ((representation_scales p).filter (fun l => decide (l ∈ S))).length ∧
      ∀ l : ScaleLabel, l ≠ ScaleLabel.pixelStatistics →
        l ≠ ScaleLabel.residualLowpass → l ≠ ScaleLabel.residualHighpass →
        (∀ k, k < p.nScales → l ≠ ScaleLabel.scaleIx k) →
        remove_scales p v (l :: S) = remove_scales p v S := by
  refine ⟨?_, remove_scales_length p v S, ?_⟩
  · have := enumFrom_filter_getD S (representation_scales p) v [] hv
    simpa [remove_scales, List.enum] using this
  · intro l h1 h2 h3 h4
    have hcongr : (representation_scales p).enum.filter
          (fun is => decide (is.2 ∈ l :: S)) =
        (representation_scales p).enum.filter
          (fun is => decide (is.2 ∈ S)) := by
      apply List.filter_congr
      intro is his
      have hsnd : is.2 ∈ representation_scales p := by
        have hmap := List.enum_map_snd (representation_scales p)
        rw [← hmap]
        exact List.mem_map_of_mem Prod.snd his
      have hne : is.2 ≠ l := by
        rcases mem_representation_scales_valid p is.2 hsnd with h | h | h |
          ⟨k, hk, h⟩
        · rw [h]; exact fun hc => h1 hc.symm
        · rw [h]; exact fun hc => h2 hc.symm
        · rw [h]; exact fun hc => h3 hc.symm
        · rw [h]; exact fun hc => h4 k hk hc.symm
      simp [List.mem_cons, hne]
    simp only [remove_scales, hcongr]

/-- Witness for C8 on a concrete full-length vector. -/
theorem remove_scales_pure_mask_witness :
    remove_scales ⟨1, 1, 3, false⟩ (List.replicate 104 (0 : ℚ))
          [ScaleLabel.residualLowpass] =
        (((representation_scales ⟨1, 1, 3, false⟩).zip
            (List.replicate 104 (0 : ℚ))).filter
          (fun x => decide (x.1 ∈ [ScaleLabel.residualLowpass]))).map
          Prod.snd ∧
      (remove_scales ⟨1, 1, 3, false⟩ (List.replicate 104 (0 : ℚ))
          [ScaleLabel.residualLowpass]).length =
        ((representation_scales ⟨1, 1, 3, false⟩).filter
          (fun l => decide (l ∈ [ScaleLabel.residualLowpass]))).length ∧
      ∀ l : ScaleLabel, l ≠ ScaleLabel.pixelStatistics →
        l ≠ ScaleLabel.residualLowpass → l ≠ ScaleLabel.residualHighpass →
        (∀ k, k < (1 : ℕ) → l ≠ ScaleLabel.scaleIx k) →
        remove_scales ⟨1, 1, 3, false⟩ (List.replicate 104 (0 : ℚ))
            (l :: [ScaleLabel.residualLowpass]) =
          remove_scales ⟨1, 1, 3, false⟩ (List.replicate 104 (0 : ℚ))
            [ScaleLabel.residualLowpass] :=
  remove_scales_pure_mask ⟨1, 1, 3, false⟩ (List.replicate 104 (0 : ℚ))
    [ScaleLabel.residualLowpass] (by decide)

/-- C7: `convert_to_dict` fails, naming the expected and actual lengths, if
and only if the final dimension of its input differs from
`len(representation_scales)`; on a full-length vector it parses; and on any
vector subsetted by a label set that drops at least one position it fails
with a strictly smaller actual length. -/
theorem convert_to_dict_guard (p : PSParams) (v : List ℚ) :
    ((∃ d, convert_to_dict p v = Except.ok d) ↔
        v.length = (representation_scales p).length) ∧
      (∀ e a, convert_to_dict p v = Except.error (e, a) →
        e = (representation_scales p).length ∧ a = v.length ∧
          v.length ≠ (representation_scales p).length) ∧
      ∀ S : List ScaleLabel, v.length = (representation_scales p).length →
        (∃ l ∈ representation_scales p, l ∉ S) →
        convert_to_dict p (remove_scales p v S) =
            Except.error ((representation_scales p).length,
              (remove_scales p v S).length) ∧
          (remove_scales p v S).length < v.length := by
  refine ⟨⟨?_, ?_⟩, ?_, ?_⟩
  · rintro ⟨d, hd⟩
    by_contra hlen
    simp [convert_to_dict, hlen] at hd
  · intro h
    unfold convert_to_dict
    rw [if_neg (by simp [h])]
    exact ⟨_, rfl⟩
  · intro e a he
    by_cases hlen : v.length = (representation_scales p).length
    · simp [convert_to_dict, hlen] at he
    · simp [convert_to_dict, hlen] at he
      exact ⟨he.1.symm, he.2.symm, hlen⟩
  · rintro S hv ⟨l, hl, hlS⟩
    have hlt : ((representation_scales p).filter
          (fun x => decide (x ∈ S))).length <
        (representation_scales p).length := by
      rw [List.length_filter_lt_length_iff_exists]
      exact ⟨l, hl, by simpa using hlS⟩
    have h2 : (remove_scales p v S).length <
        (representation_scales p).length := by
      rw [remove_scales_length]; exact hlt
    refine ⟨?_, by rw [hv]; exact h2⟩
    simp [convert_to_dict, Nat.ne_of_lt h2]

/-- Witness for C7: subsetting everything away and then calling
`convert_to_dict` produces the length-mismatch error. -/
theorem convert_to_dict_guard_witness :
    convert_to_dict ⟨1, 1, 3, false⟩
          (remove_scales ⟨1, 1, 3, false⟩ (List.replicate 104 (0 : ℚ)) []) =
        Except.error ((representation_scales ⟨1, 1, 3, false⟩).length,
          (remove_scales ⟨1, 1, 3, false⟩ (List.replicate 104 (0 : ℚ))
            []).length) ∧
      (remove_scales ⟨1, 1, 3, false⟩ (List.replicate 104 (0 : ℚ))
          []).length < (List.replicate 104 (0 : ℚ)).length :=
  (convert_to_dict_guard ⟨1, 1, 3, false⟩ (List.replicate 104 (0 : ℚ))).2.2 []
    (by decide) ⟨ScaleLabel.pixelStatistics, by decide, by decide⟩

/-! ## Moment statistics (`_compute_pixel_stats`,
`_compute_skew_kurtosis_recon`) -/

/-- `torch.mean(image, dim=(-2, -1))` on one (batch, channel) slice,
flattened. -/
def torch_mean (x : List ℚ) : ℚ := x.sum / x.length

/-- `torch.var(image, dim=(-2, -1))` with its default `unbiased=True`
estimator: the sum of squared deviations from the mean divided by `N - 1`,
exactly as called in `_compute_pixel_stats`. -/
def torch_var (x : List ℚ) : ℚ :=
  (x.map (fun a => (a - torch_mean x) ^ 2)).sum / ((x.length : ℚ) - 1)

/-- Modelled from the spec: `plenoptic.tools.stats.skew` is not under src/.
§4.1: skew = E[(x-μ)³]/σ³ with externally supplied mean and variance. -/
noncomputable def stats_skew (mean v : ℚ) (x : List ℚ) : ℝ :=
  (((x.map (fun a => (a - mean) ^ 3)).sum / x.length : ℚ) : ℝ) /
    Real.sqrt (v : ℝ) ^ 3

/-- Modelled from the spec: `plenoptic.tools.stats.kurtosis` is not under
src/.  §4.1: kurtosis = E[(x-μ)⁴]/σ⁴ with externally supplied mean and
variance. -/
def stats_kurtosis (mean v : ℚ) (x : List ℚ) : ℚ :=
  ((x.map (fun a => (a - mean) ^ 4)).sum / x.length) / v ^ 2

/-- `einops.reduce(image, 'b c h w -> b c', 'min')` on one slice. -/
def reduce_min : List ℚ → ℚ
  | [] => 0
  | a :: r => r.foldl min a

/-- `einops.reduce(image, 'b c h w -> b c', 'max')` on one slice. -/
def reduce_max : List ℚ → ℚ
  | [] => 0
  | a :: r => r.foldl max a

/-- `PortillaSimoncelli._compute_pixel_stats` on one (batch, channel) slice:
`einops.pack([mean, var, skew, kurtosis, img_min, img_max], 'b c *')`. -/
noncomputable def compute_pixel_stats (image : List ℚ) : List ℝ :=
  [(torch_mean image : ℝ), (torch_var image : ℝ),
   stats_skew (torch_mean image) (torch_var image) image,
   (stats_kurtosis (torch_mean image) (torch_var image) image : ℝ),
   (reduce_min image : ℝ), (reduce_max image : ℝ)]

/-- The population variance the claim asserts for entry 1 of the pixel
statistics: sum of squared deviations from the mean divided by N (the number
of pixels). -/
def claim_population_variance (x : List ℚ) : ℚ :=
  (x.map (fun a => (a - x.sum / x.length) ^ 2)).sum / x.length

/-- Counterexample to C3 as stated: on the 1×2 image `[0, 2]` the emitted
variance entry is `2` (the `N-1` estimator) while the population variance is
`1`. -/
theorem compute_pixel_stats_variance_cex :
    (compute_pixel_stats [0, 2]).getD 1 0 = ((2 : ℚ) : ℝ) ∧
      claim_population_variance [0, 2] = 1 ∧
      (compute_pixel_stats [0, 2]).getD 1 0 ≠
        ((claim_population_variance [0, 2] : ℚ) : ℝ) := by
  refine ⟨?_, ?_, ?_⟩ <;>
    norm_num [compute_pixel_stats, torch_var, torch_mean,
      claim_population_variance]

theorem foldl_min_le (l : List ℚ) : ∀ (a : ℚ),
    l.foldl min a ≤ a ∧ ∀ x ∈ l, l.foldl min a ≤ x := by
  induction l with
  | nil => intro a; simp
  | cons b t ih =>
    intro a
    have h := ih (min a b)
    refine ⟨le_trans h.1 (min_le_left a b), ?_⟩
    intro x hx
    rcases List.mem_cons.mp hx with rfl | hx
    · exact le_trans h.1 (min_le_right a x)
    · exact h.2 x hx

theorem foldl_min_mem (l : List ℚ) : ∀ (a : ℚ),
    l.foldl min a = a ∨ l.foldl min a ∈ l := by
  induction l with
  | nil => intro a; simp
  | cons b t ih =>
    intro a
    rcases ih (min a b) with h | h
    · rcases min_choice a b with hab | hab
      · left; rw [List.foldl_cons, h, hab]
      · right
        rw [List.foldl_cons, h, hab]
        exact List.mem_cons_self b t
    · right; exact List.mem_cons_of_mem b h

theorem foldl_max_le (l : List ℚ) : ∀ (a : ℚ),
    a ≤ l.foldl max a ∧ ∀ x ∈ l, x ≤ l.foldl max a := by
  induction l with
  | nil => intro a; simp
  | cons b t ih =>
    intro a
    have h := ih (max a b)
    refine ⟨le_trans (le_max_left a b) h.1, ?_⟩
    intro x hx
    rcases List.mem_cons.mp hx with rfl | hx
    · exact le_trans (le_max_right a x) h.1
    · exact h.2 x hx

theorem foldl_max_mem (l : List ℚ) : ∀ (a : ℚ),
    l.foldl max a = a ∨ l.foldl max a ∈ l := by
  induction l with
  | nil => intro a; simp
  | cons b t ih =>
    intro a
    rcases ih (max a b) with h | h
    · rcases max_choice a b with hab | hab
      · left; rw [List.foldl_cons, h, hab]
      · right
        rw [List.foldl_cons, h, hab]
        exact List.mem_cons_self b t
    · right; exact List.mem_cons_of_mem b h

/-- C3 amended: the first six entries of the representation vector are, in
this order, the mean, the *sample* variance (sum of squared deviations
divided by `N - 1`, torch's default unbiased estimator — not the population
variance the claim states), the skew, the kurtosis, the minimum, and the
maximum of the slice. -/
theorem compute_pixel_stats_amended (image : List ℚ) :
    compute_pixel_stats image =
        [((image.sum / image.length : ℚ) : ℝ),
         (((image.map (fun a => (a - image.sum / image.length) ^ 2)).sum /
             ((image.length : ℚ) - 1) : ℚ) : ℝ),
         (((image.map (fun a => (a - image.sum / image.length) ^ 3)).sum /
             image.length : ℚ) : ℝ) /
           Real.sqrt
             (((image.map (fun a => (a - image.sum / image.length) ^ 2)).sum /
               ((image.length : ℚ) - 1) : ℚ) : ℝ) ^ 3,
         (((image.map (fun a => (a - image.sum / image.length) ^ 4)).sum /
               image.length /
             ((image.map (fun a => (a - image.sum / image.length) ^ 2)).sum /
               ((image.length : ℚ) - 1)) ^ 2 : ℚ) : ℝ),
         (reduce_min image : ℝ), (reduce_max image : ℝ)] ∧
      (∀ a ∈ image, reduce_min image ≤ a ∧ a ≤ reduce_max image) ∧
      (image ≠ [] → reduce_min image ∈ image ∧ reduce_max image ∈ image) := by
  refine ⟨?_, ?_, ?_⟩
  · simp [compute_pixel_stats, torch_mean, torch_var, stats_skew,
      stats_kurtosis]
  · intro a ha
    cases image with
    | nil => simp at ha
    | cons b t =>
      rcases List.mem_cons.mp ha with rfl | ha
      · exact ⟨(foldl_min_le t a).1, (foldl_max_le t a).1⟩
      · exact ⟨(foldl_min_le t b).2 a ha, (foldl_max_le t b).2 a ha⟩
  · intro hne
    cases image with
    | nil => exact absurd rfl hne
    | cons b t =>
      constructor
      · rcases foldl_min_mem t b with h | h
        · rw [reduce_min, h]; exact List.mem_cons_self b t
        · exact List.mem_cons_of_mem b h
      · rcases foldl_max_mem t b with h | h
        · rw [reduce_max, h]; exact List.mem_cons_self b t
        · exact List.mem_cons_of_mem b h

/-- Witness for C3 (amended) on the image `[0, 2]`. -/
theorem compute_pixel_stats_amended_witness :
    reduce_min [(0 : ℚ), 2] ≤ 0 ∧ (2 : ℚ) ≤ reduce_max [(0 : ℚ), 2] ∧
      reduce_min [(0 : ℚ), 2] ∈ [(0 : ℚ), 2] ∧
      reduce_max [(0 : ℚ), 2] ∈ [(0 : ℚ), 2] :=
  ⟨((compute_pixel_stats_amended [0, 2]).2.1 0 (by decide)).1,
   ((compute_pixel_stats_amended [0, 2]).2.1 2 (by decide)).2,
   ((compute_pixel_stats_amended [0, 2]).2.2 (by decide)).1,
   ((compute_pixel_stats_amended [0, 2]).2.2 (by decide)).2⟩

/-! ## Degenerate-variance policy (`_compute_skew_kurtosis_recon`) -/

/-- Modelled from the spec: in `forward`, `var_recon` is the central value of
the autocorrelation computed by `signal.autocorrelation` (not under src/);
§4.2: "The center pixel equals the spatial variance of that band."  This is
the population variance of the band. -/
def autocorr_center_var (band : List ℚ) : ℚ :=
  (band.map (fun a => (a - band.sum / band.length) ^ 2)).sum / band.length

/-- `PortillaSimoncelli._compute_skew_kurtosis_recon` on one (batch, channel)
slice: per reconstructed band, the skew and kurtosis computed with `mean=0`
and the supplied variance, replaced by the defaults 0 and 3 wherever the
condition `var_recon / img_var > 1e-6` fails (the `torch.where` step). -/
noncomputable def compute_skew_kurtosis_recon
    (reconstructed_images : List (List ℚ)) (var_recon : List ℚ)
    (img_var : ℚ) : List ℝ × List ℝ :=
  ((reconstructed_images.zip var_recon).map (fun rv =>
      if rv.2 / img_var > 1 / 1000000 then stats_skew 0 rv.2 rv.1 else 0),
   (reconstructed_images.zip var_recon).map (fun rv =>
      if rv.2 / img_var > 1 / 1000000 then (stats_kurtosis 0 rv.2 rv.1 : ℝ)
      else 3))

/-- The wiring of `forward`: `var_recon` is the central autocorrelation value
of each reconstructed band and `img_var` is `pixel_stats[..., 1]`. -/
noncomputable def skew_kurtosis_recon_forward
    (reconstructed_images : List (List ℚ)) (img_var : ℚ) :
    List ℝ × List ℝ :=
  compute_skew_kurtosis_recon reconstructed_images
    (reconstructed_images.map autocorr_center_var) img_var

/-- The claim's reading of the non-degenerate branch: the band's own skew,
`E[(x-μ)³]/σ³`, with `μ` the band's mean and `σ²` its variance. -/
noncomputable def claim_band_skew (band : List ℚ) : ℝ :=
  (((band.map (fun a => (a - band.sum / band.length) ^ 3)).sum /
      band.length : ℚ) : ℝ) / Real.sqrt (autocorr_center_var band) ^ 3

/-- Counterexample to C6 as stated: for the non-degenerate band `[0, 2]`
(variance ratio 1 > 1e-6) the forward pass emits `E[x³]/σ³ = 4` (the code
fixes `mean=0`), while the band's skew `E[(x-μ)³]/σ³` is `0`. -/
theorem skew_kurtosis_recon_cex :
    autocorr_center_var [0, 2] / (1 : ℚ) > 1 / 1000000 ∧
      (skew_kurtosis_recon_forward [[(0 : ℚ), 2]] 1).1.getD 0 0 = 4 ∧
      claim_band_skew [(0 : ℚ), 2] = 0 ∧ ((4 : ℝ) ≠ 0) := by
  refine ⟨by norm_num [autocorr_center_var], ?_, ?_, by norm_num⟩
  · norm_num [skew_kurtosis_recon_forward, compute_skew_kurtosis_recon,
      stats_skew, autocorr_center_var, Real.sqrt_one]
  · norm_num [claim_band_skew, autocorr_center_var]

theorem zip_map_getD (R : List (List ℚ)) (g : List ℚ → ℚ)
    (f : List ℚ × ℚ → ℝ) (i : ℕ) (hi : i < R.length) :
    ((R.zip (R.map g)).map f).getD i 0 = f (R[i], g (R[i])) := by
  have hzl : (R.zip (R.map g)).length = R.length := by
    simp [List.length_zip]
  have hi2 : i < ((R.zip (R.map g)).map f).length := by
    simpa [hzl] using hi
  rw [List.getD_eq_getElem _ _ hi2, List.getElem_map, List.getElem_zip,
    List.getElem_map]

/-- C6 amended: for every reconstructed band, if the ratio of its variance to
the pixel variance is at most 1e-6 the forward pass emits skew 0 and kurtosis
3; otherwise it emits `E[x³]/σ³` and `E[x⁴]/σ⁴` computed about the supplied
mean 0 (the code passes `mean=0` for the nominally demeaned reconstructions),
with `σ²` the band's autocorrelation-centre variance. -/
theorem skew_kurtosis_recon_policy (reconstructed_images : List (List ℚ))
    (img_var : ℚ) (i : ℕ) (hi : i < reconstructed_images.length) :
    (autocorr_center_var (reconstructed_images.getD i []) / img_var ≤
        1 / 1000000 →
      (skew_kurtosis_recon_forward reconstructed_images img_var).1.getD i 0 =
          0 ∧
        (skew_kurtosis_recon_forward reconstructed_images img_var).2.getD i 0 =
          3) ∧
    (autocorr_center_var (reconstructed_images.getD i []) / img_var >
        1 / 1000000 →
      (skew_kurtosis_recon_forward reconstructed_images img_var).1.getD i 0 =
          ((((reconstructed_images.getD i []).map (fun a => a ^ 3)).sum /
              (reconstructed_images.getD i []).length : ℚ) : ℝ) /
            Real.sqrt
              ((autocorr_center_var (reconstructed_images.getD i []) : ℚ) :
                ℝ) ^ 3 ∧
        (skew_kurtosis_recon_forward reconstructed_images img_var).2.getD i 0 =
          ((((reconstructed_images.getD i []).map (fun a => a ^ 4)).sum /
                (reconstructed_images.getD i []).length /
              autocorr_center_var (reconstructed_images.getD i []) ^ 2 : ℚ) :
            ℝ)) := by
  have hgetD : reconstructed_images.getD i [] = reconstructed_images[i] :=
    List.getD_eq_getElem reconstructed_images [] hi
  have hskew := zip_map_getD reconstructed_images autocorr_center_var
    (fun rv => if rv.2 / img_var > 1 / 1000000 then stats_skew 0 rv.2 rv.1
      else 0) i hi
  have hkurt := zip_map_getD reconstructed_images autocorr_center_var
    (fun rv => if rv.2 / img_var > 1 / 1000000 then
      (stats_kurtosis 0 rv.2 rv.1 : ℝ) else 3) i hi
  rw [hgetD]
  constructor
  · intro hle
    have hnot : ¬ (autocorr_center_var reconstructed_images[i] / img_var >
        1 / 1000000) := not_lt.mpr hle
    constructor
    · show ((reconstructed_images.zip
          (reconstructed_images.map autocorr_center_var)).map _).getD i 0 = 0
      rw [hskew]
      simp only [hnot, if_false, ite_false]
    · show ((reconstructed_images.zip
          (reconstructed_images.map autocorr_center_var)).map _).getD i 0 = 3
      rw [hkurt]
      simp only [hnot, if_false, ite_false]
  · intro hgt
    constructor
    · show ((reconstructed_images.zip
          (reconstructed_images.map autocorr_center_var)).map _).getD i 0 = _
      rw [hskew]
      simp only [hgt, if_true, ite_true]
      simp [stats_skew, sub_zero]
    · show ((reconstructed_images.zip
          (reconstructed_images.map autocorr_center_var)).map _).getD i 0 = _
      rw [hkurt]
      simp only [hgt, if_true, ite_true]
      norm_cast
      simp [stats_kurtosis, sub_zero]

/-- Witness for C6 (amended): band `[0, 2]` with pixel variance 1 is in the
non-degenerate branch. -/
theorem skew_kurtosis_recon_policy_witness :
    (skew_kurtosis_recon_forward [[(0 : ℚ), 2]] 1).1.getD 0 0 =
        (((([(0 : ℚ), 2]).map (fun a => a ^ 3)).sum /
            ([(0 : ℚ), 2]).length : ℚ) : ℝ) /
          Real.sqrt ((autocorr_center_var [(0 : ℚ), 2] : ℚ) : ℝ) ^ 3 ∧
      (skew_kurtosis_recon_forward [[(0 : ℚ), 2]] 1).2.getD 0 0 =
        (((([(0 : ℚ), 2]).map (fun a => a ^ 4)).sum / ([(0 : ℚ), 2]).length /
            autocorr_center_var [(0 : ℚ), 2] ^ 2 : ℚ) : ℝ) :=
  (skew_kurtosis_recon_policy [[(0 : ℚ), 2]] 1 0 (by decide)).2
    (by norm_num [autocorr_center_var])

/-! ## Cross correlations (`_compute_cross_correlation`) -/

/-- The `einops.einsum('b c s o1 h w, b c s o2 h w -> b c s o1 o2')` step of
`_compute_cross_correlation` on one (batch, channel) slice: a 6d coefficient
tensor is a function scale → orientation → flattened spatial index → value,
with the spatial element count `P = height * width` carried separately. -/
def einsum_cross (P : ℕ) (X Y : ℕ → ℕ → ℕ → ℚ) (s o1 o2 : ℕ) : ℚ :=
  ∑ q ∈ Finset.range P, X s o1 q * Y s o2 q

/-- `torch.std(coeffs_tensor, (-3, -2, -1), keepdim=True).squeeze(-1)` inside
`_compute_cross_correlation`: one standard deviation per scale, computed
jointly over the orientation, height and width dimensions with torch's
default unbiased (`N-1`) estimator, then broadcast over every orientation
pair. -/
noncomputable def torch_std_joint (O P : ℕ) (X : ℕ → ℕ → ℕ → ℚ) (s : ℕ) :
    ℝ :=
  Real.sqrt
    (((∑ o ∈ Finset.range O, ∑ q ∈ Finset.range P,
        (X s o q -
          (∑ o2 ∈ Finset.range O, ∑ q2 ∈ Finset.range P, X s o2 q2) /
            (O * P : ℕ)) ^ 2) / ((O * P : ℕ) - 1) : ℚ) : ℝ)

/-- `PortillaSimoncelli._compute_cross_correlation` on one (batch, channel)
slice: the orientation×orientation spatial inner product per scale, divided
by the number of spatial elements, and — in true-correlations mode — further
divided by the product of the two tensors' per-scale joint standard
deviations; the output axes are reordered to (o1, o2, s), which here is the
argument order of the result. -/
noncomputable def compute_cross_correlation (utc : Bool) (O P : ℕ)
    (X Y : ℕ → ℕ → ℕ → ℚ) (o1 o2 s : ℕ) : ℝ :=
  if utc then
    ((einsum_cross P X Y s o1 o2 / P : ℚ) : ℝ) /
      (torch_std_joint O P X s * torch_std_joint O P Y s)
  else ((einsum_cross P X Y s o1 o2 / P : ℚ) : ℝ)

/-- The per-band standard deviation that C4 describes: one per orientation
band, over that single band's spatial extent (unbiased estimator). -/
noncomputable def claim_band_std (P : ℕ) (X : ℕ → ℕ → ℕ → ℚ) (s o : ℕ) :
    ℝ :=
  Real.sqrt
    (((∑ q ∈ Finset.range P,
        (X s o q - (∑ q2 ∈ Finset.range P, X s o q2) / P) ^ 2) /
        ((P : ℚ) - 1) : ℚ) : ℝ)

/-- The claim's reading of the true-correlations mode: each entry divided by
the product of the two individual bands' standard deviations. -/
noncomputable def claim_cross_correlation (P : ℕ) (X Y : ℕ → ℕ → ℕ → ℚ)
    (o1 o2 s : ℕ) : ℝ :=
  ((einsum_cross P X Y s o1 o2 / P : ℚ) : ℝ) /
    (claim_band_std P X s o1 * claim_band_std P Y s o2)

/-- A concrete one-scale, two-orientation, three-pixel coefficient slice:
band 0 is `(0, 1, -1)` and band 1 is `(0, 3, -3)`. -/
def cexBands : ℕ → ℕ → ℕ → ℚ := fun _ o q =>
  if o = 0 then (if q = 1 then 1 else if q = 2 then -1 else 0)
  else (if q = 1 then 3 else if q = 2 then -3 else 0)

/-- Counterexample to C4 as stated: in true-correlations mode the code
normalizes by the per-scale joint standard deviation (2 here, for both
bands together), giving entry `(0,1,0) = 1/2`, while normalizing by the two
individual bands' standard deviations (1 and 3) would give `2/3`. -/
theorem cross_correlation_cex :
    compute_cross_correlation true 2 3 cexBands cexBands 0 1 0 = 1 / 2 ∧
      claim_cross_correlation 3 cexBands cexBands 0 1 0 = 2 / 3 ∧
      ((1 / 2 : ℝ) ≠ 2 / 3) := by
  have h4 : Real.sqrt 4 = 2 := by
    rw [show (4 : ℝ) = 2 ^ 2 by norm_num,
      Real.sqrt_sq (by norm_num : (0 : ℝ) ≤ 2)]
  have h9 : Real.sqrt 9 = 3 := by
    rw [show (9 : ℝ) = 3 ^ 2 by norm_num,
      Real.sqrt_sq (by norm_num : (0 : ℝ) ≤ 3)]
  refine ⟨?_, ?_, by norm_num⟩
  · have hstd : torch_std_joint 2 3 cexBands 0 = 2 := by
      rw [torch_std_joint]
      norm_num [cexBands, Finset.sum_range_succ]
      exact h4
    rw [compute_cross_correlation, if_pos rfl, hstd]
    norm_num [einsum_cross, cexBands, Finset.sum_range_succ]
  · have hstd0 : claim_band_std 3 cexBands 0 0 = 1 := by
      rw [claim_band_std]
      norm_num [cexBands, Finset.sum_range_succ]
    have hstd1 : claim_band_std 3 cexBands 0 1 = 3 := by
      rw [claim_band_std]
      norm_num [cexBands, Finset.sum_range_succ]
      exact h9
    rw [claim_cross_correlation, hstd0, hstd1]
    norm_num [einsum_cross, cexBands, Finset.sum_range_succ]

/-- C4 amended: `_compute_cross_correlation` returns, at output position
(o1, o2, s), the spatial inner product of bands o1 and o2 at scale s divided
by the number of spatial elements; in true-correlations mode it is further
divided by the product of the two tensors' per-scale standard deviations,
each computed jointly over all orientation bands and spatial positions of
that scale (the same pair of standard deviations for every orientation pair
— not one per band) with the unbiased `N-1` estimator.  The entry is
symmetric in (o1, o2) when the two input tensors coincide. -/
theorem compute_cross_correlation_spec (utc : Bool) (O P : ℕ)
    (X Y : ℕ → ℕ → ℕ → ℚ) (o1 o2 s : ℕ) :
    (utc = false →
      compute_cross_correlation false O P X Y o1 o2 s =
        (((∑ q ∈ Finset.range P, X s o1 q * Y s o2 q) / P : ℚ) : ℝ)) ∧
    (utc = true →
      compute_cross_correlation true O P X Y o1 o2 s =
        (((∑ q ∈ Finset.range P, X s o1 q * Y s o2 q) / P : ℚ) : ℝ) /
          (Real.sqrt
              (((∑ o ∈ Finset.range O, ∑ q ∈ Finset.range P,
                  (X s o q -
                    (∑ o3 ∈ Finset.range O, ∑ q2 ∈ Finset.range P,
                      X s o3 q2) / (O * P : ℕ)) ^ 2) /
                ((O * P : ℕ) - 1) : ℚ) : ℝ) *
            Real.sqrt
              (((∑ o ∈ Finset.range O, ∑ q ∈ Finset.range P,
                  (Y s o q -
                    (∑ o3 ∈ Finset.range O, ∑ q2 ∈ Finset.range P,
                      Y s o3 q2) / (O * P : ℕ)) ^ 2) /
                ((O * P : ℕ) - 1) : ℚ) : ℝ))) ∧
    compute_cross_correlation utc O P X X o1 o2 s =
      compute_cross_correlation utc O P X X o2 o1 s := by
  have hsym : einsum_cross P X X s o1 o2 = einsum_cross P X X s o2 o1 := by
    unfold einsum_cross
    exact Finset.sum_congr rfl fun q _ => mul_comm _ _
  refine ⟨fun _ => ?_, fun _ => ?_, ?_⟩
  · rw [compute_cross_correlation, if_neg (by simp), einsum_cross]
  · rw [compute_cross_correlation, if_pos rfl, einsum_cross,
      torch_std_joint, torch_std_joint]
  · cases utc <;> rw [compute_cross_correlation, compute_cross_correlation] <;>
      simp [hsym]

/-- Witness for C4 (amended) at the concrete slice `cexBands`. -/
theorem compute_cross_correlation_spec_witness :
    compute_cross_correlation true 2 3 cexBands cexBands 0 1 0 =
        (((∑ q ∈ Finset.range 3, cexBands 0 0 q * cexBands 0 1 q) / 3 :
            ℚ) : ℝ) /
          (Real.sqrt
              (((∑ o ∈ Finset.range 2, ∑ q ∈ Finset.range 3,
                  (cexBands 0 o q -
                    (∑ o3 ∈ Finset.range 2, ∑ q2 ∈ Finset.range 3,
                      cexBands 0 o3 q2) / (2 * 3 : ℕ)) ^ 2) /
                ((2 * 3 : ℕ) - 1) : ℚ) : ℝ) *
            Real.sqrt
              (((∑ o ∈ Finset.range 2, ∑ q ∈ Finset.range 3,
                  (cexBands 0 o q -
                    (∑ o3 ∈ Finset.range 2, ∑ q2 ∈ Finset.range 3,
                      cexBands 0 o3 q2) / (2 * 3 : ℕ)) ^ 2) /
                ((2 * 3 : ℕ) - 1) : ℚ) : ℝ)) ∧
      compute_cross_correlation true 2 3 cexBands cexBands 0 1 0 =
        compute_cross_correlation true 2 3 cexBands cexBands 1 0 0 :=
  ⟨(compute_cross_correlation_spec true 2 3 cexBands cexBands 0 1 0).2.1 rfl,
   (compute_cross_correlation_spec true 2 3 cexBands cexBands 0 1 0).2.2⟩

/-! ## Lowpass stitching (`_create_lowpass_corr_tensor`,
`compute_crosscorrelation`, `_concat_lowpass_to_cross_ori_real`) -/

/-- Modelled from the spec: `plenoptic.tools.signal.shrink` is not under
src/; §4.2 describes the operation as "downsample the spatial grid by a
factor of `2^scale_index`", embedded here as grid subsampling. -/
def signal_shrink (factor : ℕ) (x : ℕ → ℕ → ℚ) : ℕ → ℕ → ℚ :=
  fun i j => x (factor * i) (factor * j)

/-- `torch.Tensor.std()` over all elements of an (R rows × C columns) matrix
(unbiased `N-1` estimator), used by `compute_crosscorrelation` in
true-correlations mode. -/
noncomputable def torch_std_mat (R C : ℕ) (m : ℕ → ℕ → ℚ) : ℝ :=
  Real.sqrt
    (((∑ q ∈ Finset.range R, ∑ k ∈ Finset.range C,
        (m q k -
          (∑ q2 ∈ Finset.range R, ∑ k2 ∈ Finset.range C, m q2 k2) /
            (R * C : ℕ)) ^ 2) / ((R * C : ℕ) - 1) : ℚ) : ℝ)

/-- `PortillaSimoncelli.compute_crosscorrelation(ch1, ch2, band_num_el)`:
`ch1.transpose(-2, -1) @ ch2 / band_num_el`, further divided by
`ch1.std() * ch2.std()` in true-correlations mode.  `R` is the shared row
(flattened spatial) count and `C1`, `C2` the column counts of the two
factors. -/
noncomputable def compute_crosscorrelation (utc : Bool) (R C1 C2 : ℕ)
    (band_num_el : ℕ) (ch1 ch2 : ℕ → ℕ → ℚ) (k1 k2 : ℕ) : ℝ :=
  if utc then
    (((∑ q ∈ Finset.range R, ch1 q k1 * ch2 q k2) / band_num_el : ℚ) : ℝ) /
      (torch_std_mat R C1 ch1 * torch_std_mat R C2 ch2)
  else (((∑ q ∈ Finset.range R, ch1 q k1 * ch2 q k2) / band_num_el : ℚ) : ℝ)

/-- `PortillaSimoncelli._create_lowpass_corr_tensor` on one (batch, channel)
slice: the residual lowpass is shrunk by `2^(n_scales-1)` (left untouched for
`n_scales = 1`), multiplied by `2^(n_scales-2)`, transposed, and stacked as
its flattening together with the flattenings of its four one-pixel circular
rolls (`roll(±1, -2)`, `roll(±1, -1)`).  The result maps (flattened spatial
index, copy index 0..4) to a value; `H`, `W` are the lowpass dimensions. -/
def create_lowpass_corr_tensor (n_scales H W : ℕ)
    (lowpass : ℕ → ℕ → ℚ) : ℕ → ℕ → ℚ :=
  let downsampled :=
    if n_scales = 1 then lowpass
    else signal_shrink (2 ^ (n_scales - 1)) lowpass
  let H2 := if n_scales = 1 then H else H / 2 ^ (n_scales - 1)
  let W2 := if n_scales = 1 then W else W / 2 ^ (n_scales - 1)
  let scaled := fun i j => downsampled i j * (2 : ℚ) ^ ((n_scales : ℤ) - 2)
  let t := fun i j => scaled j i
  fun q k =>
    if k = 0 then t (q / H2) (q % H2)
    else if k = 1 then t ((((q / H2 : ℤ) - 1) % (W2 : ℤ)).toNat) (q % H2)
    else if k = 2 then t ((((q / H2 : ℤ) + 1) % (W2 : ℤ)).toNat) (q % H2)
    else if k = 3 then t (q / H2) ((((q % H2 : ℤ) - 1) % (H2 : ℤ)).toNat)
    else t (q / H2) ((((q % H2 : ℤ) + 1) % (H2 : ℤ)).toNat)

/-- `PortillaSimoncelli._concat_lowpass_to_cross_ori_real` on one slice: the
cross-orientation real correlation tensor (axes o1, o2, s) is zero-padded
from `n_orientations` up to `max(2*n_orientations, 5)` in both orientation
axes, and the 5×5 self-correlation of the shifted upsampled-lowpass copies —
zero-padded likewise — is concatenated as the final scale slot. -/
noncomputable def concat_lowpass_to_cross_ori_real (utc : Bool)
    (n_scales n_ori H W : ℕ) (cross_ori_corr_real : ℕ → ℕ → ℕ → ℝ)
    (lowpass : ℕ → ℕ → ℚ) : ℕ → ℕ → ℕ → ℝ :=
  let H2 := if n_scales = 1 then H else H / 2 ^ (n_scales - 1)
  let W2 := if n_scales = 1 then W else W / 2 ^ (n_scales - 1)
  let upsampled_lowpass := create_lowpass_corr_tensor n_scales H W lowpass
  let upsampled_lowpass_corr :=
    compute_crosscorrelation utc (W2 * H2) 5 5 (H * W) upsampled_lowpass
      upsampled_lowpass
  fun o1 o2 s =>
    if s < n_scales then
      (if o1 < n_ori ∧ o2 < n_ori then cross_ori_corr_real o1 o2 s else 0)
    else if o1 < 5 ∧ o2 < 5 then upsampled_lowpass_corr o1 o2 else 0

/-- The claim's reading of the resampling step: nearest-neighbour upsampling
of the spatial grid by the factor. -/
def claim_upsample (factor : ℕ) (x : ℕ → ℕ → ℚ) : ℕ → ℕ → ℚ :=
  fun i j => x (i / factor) (j / factor)

/-- The claim's version of `_create_lowpass_corr_tensor`: identical except
that the lowpass is *upsampled* by `2^(n_scales-1)` (so the spatial grid
grows to `H*2^(n_scales-1) × W*2^(n_scales-1)`). -/
def claim_create_lowpass_corr_tensor (n_scales H W : ℕ)
    (lowpass : ℕ → ℕ → ℚ) : ℕ → ℕ → ℚ :=
  let up := claim_upsample (2 ^ (n_scales - 1)) lowpass
  let H2 := H * 2 ^ (n_scales - 1)
  let W2 := W * 2 ^ (n_scales - 1)
  let scaled := fun i j => up i j * (2 : ℚ) ^ ((n_scales : ℤ) - 2)
  let t := fun i j => scaled j i
  fun q k =>
    if k = 0 then t (q / H2) (q % H2)
    else if k = 1 then t ((((q / H2 : ℤ) - 1) % (W2 : ℤ)).toNat) (q % H2)
    else if k = 2 then t ((((q / H2 : ℤ) + 1) % (W2 : ℤ)).toNat) (q % H2)
    else if k = 3 then t (q / H2) ((((q % H2 : ℤ) - 1) % (H2 : ℤ)).toNat)
    else t (q / H2) ((((q % H2 : ℤ) + 1) % (H2 : ℤ)).toNat)

/-- A concrete 2×2 residual lowpass: a single impulse at the origin. -/
def cexLowpass : ℕ → ℕ → ℚ := fun i j => if i = 0 ∧ j = 0 then 1 else 0

/-- Counterexample to C5 as stated: with `n_scales = 2` and the 2×2 impulse
lowpass, the final-slot (0,0) entry of the stitched tensor is `1/4` (the code
*shrinks* the lowpass by `2^(n_scales-1)` to 1×1), while the claim's
upsampling by `2^(n_scales-1)` (to 4×4) would produce `1`. -/
theorem lowpass_stitching_cex :
    concat_lowpass_to_cross_ori_real false 2 2 2 2 (fun _ _ _ => 0)
        cexLowpass 0 0 2 = 1 / 4 ∧
      compute_crosscorrelation false
          ((2 * 2 ^ (2 - 1)) * (2 * 2 ^ (2 - 1))) 5 5 (2 * 2)
          (claim_create_lowpass_corr_tensor 2 2 2 cexLowpass)
          (claim_create_lowpass_corr_tensor 2 2 2 cexLowpass) 0 0 = 1 ∧
      ((1 / 4 : ℝ) ≠ 1) := by
  refine ⟨?_, ?_, by norm_num⟩
  · norm_num [concat_lowpass_to_cross_ori_real, compute_crosscorrelation,
      create_lowpass_corr_tensor, signal_shrink, cexLowpass,
      Finset.sum_range_succ]
  · norm_num [compute_crosscorrelation, claim_create_lowpass_corr_tensor,
      claim_upsample, cexLowpass, Finset.sum_range_succ]

/-- C5 amended: the residual lowpass is *downsampled* by `2^(n_scales-1)`
(not upsampled), scaled by `2^(n_scales-2)`, and shifted circularly by ±1
pixel along each spatial direction of its transpose to produce the 5 copies
(centre first); the resulting 5×5 self-correlation block (divided by the
original lowpass element count) is zero-padded to
`max(2*n_orientations, 5)` in both orientation axes and concatenated as the
final scale slot of the cross-orientation real correlation tensor, whose
earlier slots are the original entries zero-padded beyond
`n_orientations`. -/
theorem lowpass_stitching_spec (utc : Bool) (n_scales n_ori H W : ℕ)
    (cross_ori : ℕ → ℕ → ℕ → ℝ) (lowpass : ℕ → ℕ → ℚ)
    (hn : 2 ≤ n_scales) :
    (∀ q, create_lowpass_corr_tensor n_scales H W lowpass q 0 =
      lowpass (2 ^ (n_scales - 1) * (q % (H / 2 ^ (n_scales - 1))))
          (2 ^ (n_scales - 1) * (q / (H / 2 ^ (n_scales - 1)))) *
        (2 : ℚ) ^ ((n_scales : ℤ) - 2)) ∧
    (∀ q, create_lowpass_corr_tensor n_scales H W lowpass q 1 =
      lowpass (2 ^ (n_scales - 1) * (q % (H / 2 ^ (n_scales - 1))))
          (2 ^ (n_scales - 1) *
            ((((q / (H / 2 ^ (n_scales - 1)) : ℤ) - 1) %
              ((W / 2 ^ (n_scales - 1) : ℕ) : ℤ)).toNat)) *
        (2 : ℚ) ^ ((n_scales : ℤ) - 2)) ∧
    (∀ q, create_lowpass_corr_tensor n_scales H W lowpass q 2 =
      lowpass (2 ^ (n_scales - 1) * (q % (H / 2 ^ (n_scales - 1))))
          (2 ^ (n_scales - 1) *
            ((((q / (H / 2 ^ (n_scales - 1)) : ℤ) + 1) %
              ((W / 2 ^ (n_scales - 1) : ℕ) : ℤ)).toNat)) *
        (2 : ℚ) ^ ((n_scales : ℤ) - 2)) ∧
    (∀ q, create_lowpass_corr_tensor n_scales H W lowpass q 3 =
      lowpass (2 ^ (n_scales - 1) *
            ((((q % (H / 2 ^ (n_scales - 1)) : ℤ) - 1) %
              ((H / 2 ^ (n_scales - 1) : ℕ) : ℤ)).toNat))
          (2 ^ (n_scales - 1) * (q / (H / 2 ^ (n_scales - 1)))) *
        (2 : ℚ) ^ ((n_scales : ℤ) - 2)) ∧
    (∀ q, create_lowpass_corr_tensor n_scales H W lowpass q 4 =
      lowpass (2 ^ (n_scales - 1) *
            ((((q % (H / 2 ^ (n_scales - 1)) : ℤ) + 1) %
              ((H / 2 ^ (n_scales - 1) : ℕ) : ℤ)).toNat))
          (2 ^ (n_scales - 1) * (q / (H / 2 ^ (n_scales - 1)))) *
        (2 : ℚ) ^ ((n_scales : ℤ) - 2)) ∧
    (∀ o1 o2 s, s < n_scales → o1 < n_ori → o2 < n_ori →
      concat_lowpass_to_cross_ori_real utc n_scales n_ori H W cross_ori
          lowpass o1 o2 s = cross_ori o1 o2 s) ∧
    (∀ o1 o2 s, s < n_scales → n_ori ≤ o1 ∨ n_ori ≤ o2 →
      concat_lowpass_to_cross_ori_real utc n_scales n_ori H W cross_ori
          lowpass o1 o2 s = 0) ∧
    (∀ o1 o2, o1 < 5 → o2 < 5 →
      concat_lowpass_to_cross_ori_real utc n_scales n_ori H W cross_ori
          lowpass o1 o2 n_scales =
        compute_crosscorrelation utc
          ((W / 2 ^ (n_scales - 1)) * (H / 2 ^ (n_scales - 1))) 5 5 (H * W)
          (create_lowpass_corr_tensor n_scales H W lowpass)
          (create_lowpass_corr_tensor n_scales H W lowpass) o1 o2) ∧
    (∀ o1 o2, 5 ≤ o1 ∨ 5 ≤ o2 →
      concat_lowpass_to_cross_ori_real utc n_scales n_ori H W cross_ori
          lowpass o1 o2 n_scales = 0) := by
  have h1 : ¬ n_scales = 1 := by omega
  refine ⟨?_, ?_, ?_, ?_, ?_, ?_, ?_, ?_, ?_⟩
  · intro q
    simp [create_lowpass_corr_tensor, signal_shrink, h1]
  · intro q
    simp [create_lowpass_corr_tensor, signal_shrink, h1]
  · intro q
    simp [create_lowpass_corr_tensor, signal_shrink, h1]
  · intro q
    simp [create_lowpass_corr_tensor, signal_shrink, h1]
  · intro q
    simp [create_lowpass_corr_tensor, signal_shrink, h1]
  · intro o1 o2 s hs ho1 ho2
    simp [concat_lowpass_to_cross_ori_real, hs, ho1, ho2]
  · intro o1 o2 s hs ho
    have : ¬ (o1 < n_ori ∧ o2 < n_ori) := by omega
    simp [concat_lowpass_to_cross_ori_real, hs, this]
  · intro o1 o2 ho1 ho2
    have hns : ¬ (n_scales < n_scales) := lt_irrefl _
    simp [concat_lowpass_to_cross_ori_real, hns, ho1, ho2, h1]
  · intro o1 o2 ho
    have hns : ¬ (n_scales < n_scales) := lt_irrefl _
    have : ¬ (o1 < 5 ∧ o2 < 5) := by omega
    simp [concat_lowpass_to_cross_ori_real, hns, this]

/-- Witness for C5 (amended) at `n_scales = 2` on the 2×2 impulse lowpass. -/
theorem lowpass_stitching_spec_witness :
    create_lowpass_corr_tensor 2 2 2 cexLowpass 0 0 =
        cexLowpass (2 ^ (2 - 1) * (0 % (2 / 2 ^ (2 - 1))))
            (2 ^ (2 - 1) * (0 / (2 / 2 ^ (2 - 1)))) *
          (2 : ℚ) ^ ((2 : ℤ) - 2) ∧
      concat_lowpass_to_cross_ori_real false 2 2 2 2 (fun _ _ _ => 0)
          cexLowpass 0 0 2 =
        compute_crosscorrelation false
          ((2 / 2 ^ (2 - 1)) * (2 / 2 ^ (2 - 1))) 5 5 (2 * 2)
          (create_lowpass_corr_tensor 2 2 2 cexLowpass)
          (create_lowpass_corr_tensor 2 2 2 cexLowpass) 0 0 := by
  have h := lowpass_stitching_spec false 2 2 2 2 (fun _ _ _ => 0) cexLowpass
    (by decide)
  exact ⟨h.1 0, (h.2.2.2.2.2.2.2.1) 0 0 (by decide) (by decide)⟩

/-! ## Phase doubling (`_double_phase_pyr_coeffs`) -/

/-- Modelled from the spec: `plenoptic.tools.signal.modulate_phase` is not
under src/; §4.3: the phase angle is multiplied by the factor,
`z → |z|·exp(i·factor·arg(z))` (factor 2 doubles the phase). -/
noncomputable def modulate_phase (z : ℂ) (factor : ℕ) : ℂ :=
  (Complex.abs z : ℂ) *
    Complex.exp ((factor : ℂ) * (Complex.arg z : ℂ) * Complex.I)

/-- `PortillaSimoncelli._double_phase_pyr_coeffs` on one (batch, channel)
slice; coefficients are scale → orientation → flattened-spatial lists of
complex values.  The finest scale is dropped (`[:, :, 1:]`), phases are
doubled, and the result is split into (a) spatially demeaned magnitudes and
(b) an `einops.pack([-real, imag], 'b c s * h w')` tensor whose orientation
axis holds the negated real parts in slots `0..n_orientations-1` and the
imaginary parts in slots `n_orientations..2*n_orientations-1`. -/
noncomputable def double_phase_pyr_coeffs
    (pyr_coeffs : List (List (List ℂ))) :
    List (List (List ℝ)) × List (List (List ℝ)) :=
  let doubled := (pyr_coeffs.drop 1).map (fun sc =>
    sc.map (fun band => band.map (fun z => modulate_phase z 2)))
  (doubled.map (fun sc => sc.map (fun band =>
      let m := band.map Complex.abs
      m.map (fun a => a - m.sum / m.length))),
   doubled.map (fun sc =>
      sc.map (fun band => band.map (fun z => -z.re)) ++
        sc.map (fun band => band.map (fun z => z.im))))

theorem getD_map_of_lt (f : α → β) (l : List α) (i : ℕ) (d : β)
    (h : i < l.length) : (l.map f).getD i d = f l[i] := by
  rw [List.getD_eq_getElem _ _ (by simpa using h), List.getElem_map]

/-- Shared helper: phase doubling preserves the magnitude. -/
theorem abs_modulate_phase (z : ℂ) (factor : ℕ) :
    Complex.abs (modulate_phase z factor) = Complex.abs z := by
  rw [modulate_phase, map_mul]
  rw [show ((factor : ℕ) : ℂ) * (Complex.arg z : ℂ) * Complex.I =
      ((factor * Complex.arg z : ℝ) : ℂ) * Complex.I by push_cast; ring]
  rw [Complex.abs_exp_ofReal_mul_I]
  simp [Complex.abs_ofReal, abs_of_nonneg (Complex.abs.nonneg z)]

/-- C9: every oriented coefficient at scales `1 .. n_scales-1` has its phase
doubled and is split into the demeaned magnitude tensor (same shape as those
bands) and the separately packed tensor with `2*n_orientations` orientation
slots — negated real part at slot `o`, imaginary part at slot
`o + n_orientations`; the finest scale is never phase-doubled (the outputs
have one scale slot fewer than the input), and phase doubling preserves the
magnitude. -/
theorem double_phase_pyr_coeffs_spec (pyr_coeffs : List (List (List ℂ)))
    (s o : ℕ) (hs : s + 1 < pyr_coeffs.length)
    (ho : o < (pyr_coeffs.getD (s + 1) []).length) :
    (double_phase_pyr_coeffs pyr_coeffs).1.length = pyr_coeffs.length - 1 ∧
    (double_phase_pyr_coeffs pyr_coeffs).2.length = pyr_coeffs.length - 1 ∧
    ((double_phase_pyr_coeffs pyr_coeffs).1.getD s []).length =
      (pyr_coeffs.getD (s + 1) []).length ∧
    (((double_phase_pyr_coeffs pyr_coeffs).1.getD s []).getD o [] =
      (((pyr_coeffs.getD (s + 1) []).getD o []).map
          (fun z => Complex.abs (modulate_phase z 2))).map
        (fun a => a -
          (((pyr_coeffs.getD (s + 1) []).getD o []).map
              (fun z => Complex.abs (modulate_phase z 2))).sum /
            (((pyr_coeffs.getD (s + 1) []).getD o []).map
              (fun z => Complex.abs (modulate_phase z 2))).length)) ∧
    (((double_phase_pyr_coeffs pyr_coeffs).1.getD s []).getD o []).length =
      ((pyr_coeffs.getD (s + 1) []).getD o []).length ∧
    ((double_phase_pyr_coeffs pyr_coeffs).2.getD s []).length =
      2 * (pyr_coeffs.getD (s + 1) []).length ∧
    (((double_phase_pyr_coeffs pyr_coeffs).2.getD s []).getD o [] =
      ((pyr_coeffs.getD (s + 1) []).getD o []).map
        (fun z => -(modulate_phase z 2).re)) ∧
    (((double_phase_pyr_coeffs pyr_coeffs).2.getD s []).getD
        (o + (pyr_coeffs.getD (s + 1) []).length) [] =
      ((pyr_coeffs.getD (s + 1) []).getD o []).map
        (fun z => (modulate_phase z 2).im)) ∧
    ∀ z : ℂ, Complex.abs (modulate_phase z 2) = Complex.abs z := by
  have hds : s < (pyr_coeffs.drop 1).length := by
    simp only [List.length_drop]; omega
  have hsc : (pyr_coeffs.drop 1)[s] = pyr_coeffs[s + 1] := by
    simp [List.getElem_drop, Nat.add_comm]
  have hgd : pyr_coeffs.getD (s + 1) [] = pyr_coeffs[s + 1] :=
    List.getD_eq_getElem pyr_coeffs [] hs
  have ho2 : o < (pyr_coeffs[s + 1]).length := by rwa [hgd] at ho
  have hmagrows :
      (double_phase_pyr_coeffs pyr_coeffs).1.getD s [] =
        (pyr_coeffs[s + 1]).map (fun band =>
          (band.map (fun z => Complex.abs (modulate_phase z 2))).map
            (fun a => a -
              (band.map (fun z => Complex.abs (modulate_phase z 2))).sum /
              (band.map
                (fun z => Complex.abs (modulate_phase z 2))).length)) := by
    rw [double_phase_pyr_coeffs]
    rw [getD_map_of_lt _ _ _ _ (by simpa using hds), List.getElem_map, hsc]
    simp [List.map_map, Function.comp_def]
  have hseprow :
      (double_phase_pyr_coeffs pyr_coeffs).2.getD s [] =
        (pyr_coeffs[s + 1]).map (fun band =>
            band.map (fun z => -(modulate_phase z 2).re)) ++
          (pyr_coeffs[s + 1]).map (fun band =>
            band.map (fun z => (modulate_phase z 2).im)) := by
    rw [double_phase_pyr_coeffs]
    rw [getD_map_of_lt _ _ _ _ (by simpa using hds), List.getElem_map, hsc]
    simp [List.map_map, Function.comp_def]
  refine ⟨?_, ?_, ?_, ?_, ?_, ?_, ?_, ?_,
    fun z => abs_modulate_phase z 2⟩
  · simp [double_phase_pyr_coeffs]
  · simp [double_phase_pyr_coeffs]
  · rw [hmagrows, hgd]; simp
  · rw [hmagrows, hgd]
    rw [getD_map_of_lt _ _ _ _ ho2, List.getD_eq_getElem _ _ ho2]
  · rw [hmagrows, hgd]
    rw [getD_map_of_lt _ _ _ _ ho2, List.getD_eq_getElem _ _ ho2]
    simp
  · rw [hseprow, hgd]; simp [Nat.two_mul]
  · rw [hseprow, hgd]
    have hoA : o < ((pyr_coeffs[s + 1]).map (fun band =>
        band.map (fun z => -(modulate_phase z 2).re))).length := by
      simpa using ho2
    have hoAB : o < (((pyr_coeffs[s + 1]).map (fun band =>
        band.map (fun z => -(modulate_phase z 2).re))) ++
          ((pyr_coeffs[s + 1]).map (fun band =>
            band.map (fun z => (modulate_phase z 2).im)))).length := by
      simp only [List.length_append, List.length_map]
      omega
    rw [List.getD_eq_getElem _ _ hoAB, List.getElem_append_left hoA,
      List.getElem_map, List.getD_eq_getElem _ _ ho2]
  · rw [hseprow, hgd]
    have hlenA : ((pyr_coeffs[s + 1]).map (fun band =>
        band.map (fun z => -(modulate_phase z 2).re))).length =
          (pyr_coeffs[s + 1]).length := by simp
    have hoAB : o + (pyr_coeffs[s + 1]).length <
        (((pyr_coeffs[s + 1]).map (fun band =>
          band.map (fun z => -(modulate_phase z 2).re))) ++
            ((pyr_coeffs[s + 1]).map (fun band =>
              band.map (fun z => (modulate_phase z 2).im)))).length := by
      simp only [List.length_append, List.length_map]
      omega
    rw [List.getD_eq_getElem _ _ hoAB,
      List.getElem_append_right (by rw [hlenA]; omega)]
    simp only [List.length_map, Nat.add_sub_cancel, List.getElem_map]
    rw [List.getD_eq_getElem _ _ ho2]

/-- Witness for C9 on a concrete two-scale, one-orientation, one-pixel
coefficient tensor. -/
theorem double_phase_pyr_coeffs_spec_witness :
    (double_phase_pyr_coeffs [[[0]], [[Complex.I]]]).1.length = 1 ∧
      ((double_phase_pyr_coeffs [[[0]], [[Complex.I]]]).2.getD 0 []).length =
        2 ∧
      ∀ z : ℂ, Complex.abs (modulate_phase z 2) = Complex.abs z := by
  obtain ⟨h1, _, _, _, _, h6, _, _, h9⟩ :=
    double_phase_pyr_coeffs_spec [[[0]], [[Complex.I]]] 0 0 (by decide)
      (by decide)
  exact ⟨h1, h6, h9⟩

/-! ## Pooling windows (`PoolingWindows.pool`, `mother_window`) -/

/-- `PoolingWindows.window` restricted to one window: the elementwise
(`einsum 'ijkl,wkl->ijwkl'`) product of one input slice with one window,
both flattened over the spatial dimensions. -/
def window_prod (x w : List ℚ) : List ℚ := List.zipWith (· * ·) x w

/-- `PoolingWindows.pool` restricted to one window: the windowed sum divided
by the window's total weight, with a zero total replaced by 1
(`divisor[divisor == 0] = 1`). -/
def pool (w : List ℚ) (windowed_x : List ℚ) : ℚ :=
  let divisor := w.sum
  let divisor2 := if divisor = 0 then 1 else divisor
  windowed_x.sum / divisor2

/-- `pooling.mother_window` (equation 9 of Freeman & Simoncelli 2011): the
raised-cosine window with a flat unit top and cosine-squared transition
flanks; `none` models the `np.nan` returned outside the support.  The
`transition_region_width` bound check (raise unless `0 ≤ t ≤ 1`) enters the
theorems below as a hypothesis. -/
noncomputable def mother_window (x transition_region_width : ℚ) :
    Option ℝ :=
  let t := transition_region_width
  if -(1 + t) / 2 < x ∧ x ≤ (t - 1) / 2 then
    some (Real.cos (Real.pi / 2 * (((x : ℝ) - ((t : ℝ) - 1) / 2) / t)) ^ 2)
  else if (t - 1) / 2 < x ∧ x ≤ (1 - t) / 2 then some 1
  else if (1 - t) / 2 < x ∧ x ≤ (1 + t) / 2 then
    some (-Real.cos (Real.pi / 2 * (((x : ℝ) - (1 + (t : ℝ)) / 2) / t)) ^ 2 +
      1)
  else none

theorem all_zero_of_sum_zero (w : List ℚ) (hnn : ∀ a ∈ w, 0 ≤ a)
    (hs : w.sum = 0) : ∀ a ∈ w, a = 0 := by
  induction w with
  | nil => simp
  | cons b t ih =>
    have hb : 0 ≤ b := hnn b (List.mem_cons_self b t)
    have ht : 0 ≤ t.sum :=
      List.sum_nonneg fun a ha => hnn a (List.mem_cons_of_mem b ha)
    have hsum : b + t.sum = 0 := by simpa using hs
    have hb0 : b = 0 := by linarith
    have ht0 : t.sum = 0 := by linarith
    intro a ha
    rcases List.mem_cons.mp ha with rfl | ha
    · exact hb0
    · exact ih (fun a ha => hnn a (List.mem_cons_of_mem b ha)) ht0 a ha

theorem zipWith_mul_sum_zero (x w : List ℚ) (hw : ∀ a ∈ w, a = 0) :
    (List.zipWith (· * ·) x w).sum = 0 := by
  induction x generalizing w with
  | nil => simp
  | cons b xt ih =>
    cases w with
    | nil => simp
    | cons c wt =>
      have hc : c = 0 := hw c (List.mem_cons_self c wt)
      simp [hc, ih wt (fun a ha => hw a (List.mem_cons_of_mem c ha))]

/-- C10: `pool` divides each window's summed response by the window's total
weight, except that a total of exactly zero is replaced by 1; consequently,
windowing any input with a nonnegative window whose weights sum to exactly
zero and pooling yields 0 (never a division by the zero total); and every
value of `mother_window` lies in `[0, 1]` (in particular the windows are
nonnegative). -/
theorem pool_zero_weight_guard :
    (∀ w wx : List ℚ, w.sum ≠ 0 → pool w wx = wx.sum / w.sum) ∧
    (∀ w wx : List ℚ, w.sum = 0 → pool w wx = wx.sum / 1) ∧
    (∀ w x : List ℚ, (∀ a ∈ w, 0 ≤ a) → w.sum = 0 →
      pool w (window_prod x w) = 0) ∧
    (∀ x t : ℚ, ∀ v : ℝ, 0 ≤ t → t ≤ 1 → mother_window x t = some v →
      0 ≤ v ∧ v ≤ 1) := by
  refine ⟨?_, ?_, ?_, ?_⟩
  · intro w wx h
    simp [pool, h]
  · intro w wx h
    simp [pool, h]
  · intro w x hnn hs
    have hz := zipWith_mul_sum_zero x w (all_zero_of_sum_zero w hnn hs)
    simp [pool, window_prod, hs, hz]
  · intro x t v _ _ hv
    rw [mother_window] at hv
    split_ifs at hv with h1 h2 h3
    · injection hv with hv2
      subst hv2
      exact ⟨sq_nonneg _, Real.cos_sq_le_one _⟩
    · injection hv with hv2
      subst hv2
      norm_num
    · injection hv with hv2
      subst hv2
      have h01 : Real.cos (Real.pi / 2 *
          (((x : ℝ) - (1 + (t : ℝ)) / 2) / t)) ^ 2 ≤ 1 :=
        Real.cos_sq_le_one _
      have h00 : (0 : ℝ) ≤ Real.cos (Real.pi / 2 *
          (((x : ℝ) - (1 + (t : ℝ)) / 2) / t)) ^ 2 := sq_nonneg _
      exact ⟨by linarith, by linarith⟩

/-- Witness for C10: the all-zero window `[0, 0]` pools any windowed input to
0, and the flat-top value of the mother window is 1 ∈ [0, 1]. -/
theorem pool_zero_weight_guard_witness :
    pool [(0 : ℚ), 0] (window_prod [3, 5] [0, 0]) = 0 ∧
      ((0 : ℝ) ≤ 1 ∧ (1 : ℝ) ≤ 1) :=
  ⟨pool_zero_weight_guard.2.2.1 [0, 0] [3, 5] (by norm_num) (by norm_num),
   pool_zero_weight_guard.2.2.2 0 (1 / 2) 1 (by norm_num) (by norm_num)
     (by norm_num [mother_window])⟩

end Plenoptic
